import Mathlib

/-!
Verification development for the Flask file-storage service in `src/app.py`.

The service keeps a metadata store (a JSON document mapping a generated
unique filename to a file record) and a tree of physical files under a
storage root. We embed the store as an association list in insertion order
(a Python dict preserves insertion order and has unique keys), the
filesystem as the list of regular files under the storage root in
`os.walk` enumeration order, and each request handler as a pure function
from (request inputs, store, filesystem) to (response, store, filesystem).
Persisting the store with `save_metadata` is modelled by the store
component of the returned state.
-/

/-- File record stored in the metadata document; the fields and their
construction mirror the dict literal built in `upload_file`
(app.py lines 111-119). Sizes are byte counts, hence `Nat`. -/
structure FileRecord where
  original_name : String
  unique_name : String
  size : Nat
  size_human : String
  upload_date : String
  path : String
  subdir : String
deriving Repr, DecidableEq

/-- The metadata store: a Python dict from unique filename to record,
embedded as an association list in insertion order. -/
abbrev Store := List (String × FileRecord)

/-- Dict key lookup, `metadata[filename]` guarded by `filename in metadata`. -/
def lookupStore : Store → String → Option FileRecord
  | [], _ => none
  | (k, v) :: rest, key => if k = key then some v else lookupStore rest key

/-- Dict deletion, `del metadata[filename]` (app.py line 221). -/
def eraseKey : Store → String → Store
  | [], _ => []
  | (k, v) :: rest, key => if k = key then rest else (k, v) :: eraseKey rest key

/-- Dict assignment, `metadata[file_id] = record` (app.py line 111):
overwrite in place when the key exists, otherwise append. -/
def dictSet : Store → String → FileRecord → Store
  | [], key, v => [(key, v)]
  | (k, w) :: rest, key, v =>
      if k = key then (k, v) :: rest else (k, w) :: dictSet rest key v

/-- One regular file under the storage root: its directory components
relative to the root, and its base name. -/
structure FsEntry where
  dir : List String
  name : String
deriving Repr, DecidableEq

/-- The files under `STORAGE_DIR`, listed in `os.walk` enumeration order. -/
abbrev Fs := List FsEntry

/-- Path of a file relative to the storage root, `os.path.join` of its
directory components and name with the separator "/". -/
def entryPath (e : FsEntry) : String :=
  String.intercalate "/" (e.dir ++ [e.name])

/-- Existence test `os.path.exists(os.path.join(STORAGE_DIR, relpath))`
for a regular file at the given path relative to the storage root. -/
def fileExists (fs : Fs) (relpath : String) : Bool :=
  fs.any (fun e => entryPath e == relpath)

/-- The `os.walk` fallback loop of `download_file` (app.py lines 191-199):
the first file, in walk order, whose base name equals `filename`. -/
def walkFind : Fs → String → Option FsEntry
  | [], _ => none
  | e :: rest, filename => if e.name = filename then some e else walkFind rest filename

/-- Removal `os.remove(file_path)` of the file at the given path relative
to the storage root (paths of distinct files are distinct). -/
def removeFile (fs : Fs) (relpath : String) : Fs :=
  fs.filter (fun e => !(entryPath e == relpath))

/-- Response of the download route: a file served with
`send_file(..., as_attachment=True, download_name=...)`, or the 404 body. -/
inductive DownloadResult where
  | attachment (filePath : String) (downloadName : String)
  | notFound
deriving Repr, DecidableEq

/-- The handler `download_file` (app.py lines 171-201). Look the identifier
up in the store; when found and the recorded path exists, serve it with the
recorded `original_name` as download name. Otherwise fall through to the
`os.walk` scan and serve the first base-name match with the identifier
itself as download name; with no match, 404. -/
def download_file (metadata : Store) (fs : Fs) (filename : String) : DownloadResult :=
  match lookupStore metadata filename with
  | some info =>
      if fileExists fs info.path then
        DownloadResult.attachment info.path info.original_name
      else
        match walkFind fs filename with
        | some e => DownloadResult.attachment (entryPath e) filename
        | none => DownloadResult.notFound
  | none =>
      match walkFind fs filename with
      | some e => DownloadResult.attachment (entryPath e) filename
      | none => DownloadResult.notFound

/-- Response of the delete route: the success body, or the 404 body. -/
inductive DeleteResult where
  | success
  | notFound
deriving Repr, DecidableEq

/-- The handler `delete_file` (app.py lines 207-226). When the identifier
is a store key: remove the backing file when it exists, delete the store
entry, persist the store (the returned `Store`), and acknowledge success.
Otherwise 404 with nothing changed. -/
def delete_file (metadata : Store) (fs : Fs) (filename : String) :
    DeleteResult × Store × Fs :=
  match lookupStore metadata filename with
  | some info =>
      let fs2 := if fileExists fs info.path then removeFile fs info.path else fs
      (DeleteResult.success, eraseKey metadata filename, fs2)
  | none => (DeleteResult.notFound, metadata, fs)

/-- Round half to even of the rational (10*v)/d, for d > 0. The Python
one-decimal float format rounds its argument to the nearest tenth with
ties to even; on the exact values size/1024^k that `format_size` feeds it
(exactly representable doubles for size below 2^53) this is that rounding. -/
def rne10 (v d : Nat) : Nat :=
  let q := 10 * v / d
  let r := 10 * v % d
  if 2 * r < d then q
  else if d < 2 * r then q + 1
  else if q % 2 = 0 then q else q + 1

/-- One-decimal rendering of the exact nonnegative rational v/d, as the
Python format specifier .1f prints it. -/
def render1 (v d : Nat) : String :=
  let m := rne10 v d
  toString (m / 10) ++ "." ++ toString (m % 10)

/-- The unit loop of `format_size` (app.py lines 136-139). The running
float `size` after k divisions is the exact rational v/1024^k, carried
here as the pair (v, d) with d = 1024^k; the guard `size < 1024.0` is
v < 1024*d (exact: near the thresholds all values are below 2^53, where
the doubles are exact). -/
def fsGo (v : Nat) (d : Nat) : List String → String
  | [] => render1 v d ++ " TB"
  | u :: units =>
      if v < 1024 * d then render1 v d ++ " " ++ u else fsGo v (1024 * d) units

/-- The function `format_size` (app.py lines 134-140). -/
def format_size (size : Nat) : String :=
  fsGo size 1 ["B", "KB", "MB", "GB"]

/-- The allowed extension set `ALLOWED_EXTENSIONS` (app.py line 19). -/
def ALLOWED_EXTENSIONS : List String :=
  ["txt", "pdf", "png", "jpg", "jpeg", "gif", "doc", "docx", "xls", "xlsx", "zip"]

/-- The Python expression `filename.split(".")[-1]`: the suffix of the
string after its last dot, or the whole string when it has no dot. -/
def extAfterLastDot (s : String) : String :=
  String.mk ((s.data.reverse.takeWhile (fun c => !(c == '.'))).reverse)

/-- The Python method `str.lower`, written at the character-list level
(`String.toLower` is exactly this map). `Char.toLower` lowercases the
ASCII range; for membership in the ASCII allowed-extension set this
agrees with the Python mapping, since no character outside A-Z lowercases
onto a letter occurring in the set. -/
def lowerStr (s : String) : String :=
  String.mk (s.data.map Char.toLower)

/-- The predicate `allowed_file` (app.py lines 32-33): the name contains a
dot and the lowercased text after the last dot is an allowed extension. -/
def allowed_file (filename : String) : Bool :=
  filename.data.contains '.' &&
    ALLOWED_EXTENSIONS.contains (lowerStr (extAfterLastDot filename))

/-- The uploaded part `request.files["file"]`: its client-supplied
filename and the byte length of its content (the byte length is what
`os.path.getsize` reports for the saved file). -/
structure UploadedFile where
  filename : String
  size : Nat
deriving Repr, DecidableEq

/-- An upload request: `none` when `"file" not in request.files`. -/
structure UploadRequest where
  file : Option UploadedFile
deriving Repr, DecidableEq

/-- The three 400 rejections of `upload_file`. The third carries the
allowed set, which the code interpolates into its message text. -/
inductive UploadError where
  | noFilePart
  | noSelectedFile
  | fileTypeNotAllowed (allowed : List String)
deriving Repr, DecidableEq

/-- Response of the upload route: a 400 rejection or the created record. -/
inductive UploadResult where
  | badRequest (err : UploadError)
  | ok (record : FileRecord)
deriving Repr, DecidableEq

/-- Ambient inputs read by the success path of `upload_file`: the
sanitizer `werkzeug.utils.secure_filename` (an external library function,
kept abstract), the two `datetime.now()` format strings, the uuid suffix,
and the date partition from `get_date_subdir`. -/
structure UploadEnv where
  secure : String → String
  timestamp : String
  unique_id : String
  date_subdir : List String
  iso_now : String

/-- The function `os.path.splitext` restricted to plain basenames (no
path separators): split at the last dot, unless every character before
that dot is itself a dot, in which case there is no extension. -/
def splitext (p : String) : String × String :=
  let revd := p.data.reverse
  let extRev := revd.takeWhile (fun c => !(c == '.'))
  match revd.drop extRev.length with
  | [] => (p, "")
  | _ :: beforeRev =>
      if beforeRev.any (fun c => !(c == '.')) then
        (String.mk beforeRev.reverse, String.mk ('.' :: extRev.reverse))
      else (p, "")

/-- Path join with "/" of a list of components. -/
def joinPath (comps : List String) : String :=
  String.intercalate "/" comps

/-- The handler `upload_file` (app.py lines 75-132): the three validation
checks in order, then the success path building the unique filename, the
record, the new physical file and the new store entry. -/
def upload_file (req : UploadRequest) (env : UploadEnv) (metadata : Store) (fs : Fs) :
    UploadResult × Store × Fs :=
  match req.file with
  | none => (UploadResult.badRequest UploadError.noFilePart, metadata, fs)
  | some f =>
      if f.filename = "" then
        (UploadResult.badRequest UploadError.noSelectedFile, metadata, fs)
      else if !(allowed_file f.filename) then
        (UploadResult.badRequest (UploadError.fileTypeNotAllowed ALLOWED_EXTENSIONS),
          metadata, fs)
      else
        let original_filename := env.secure f.filename
        let stemExt := splitext original_filename
        let unique_filename :=
          stemExt.1 ++ "_" ++ env.timestamp ++ "_" ++ env.unique_id ++ stemExt.2
        let record : FileRecord :=
          { original_name := original_filename
            unique_name := unique_filename
            size := f.size
            size_human := format_size f.size
            upload_date := env.iso_now
            path := joinPath (env.date_subdir ++ [unique_filename])
            subdir := joinPath env.date_subdir }
        (UploadResult.ok record, dictSet metadata unique_filename record,
          fs ++ [{ dir := env.date_subdir, name := unique_filename }])

/-- Python string comparison: lexicographic on the character (code point)
sequences, a strict prefix comparing below its extension. -/
def charsLt : List Char → List Char → Bool
  | [], [] => false
  | [], _ :: _ => true
  | _ :: _, [] => false
  | a :: as, b :: bs => if a < b then true else if b < a then false else charsLt as bs

/-- Sort key of `list_files`: descending by `upload_date`. The comparator
`sort(key=..., reverse=True)` orders a before b when NOT key(a) < key(b)
under the Python string order. -/
def dateDesc (a b : FileRecord) : Prop :=
  charsLt a.upload_date.data b.upload_date.data = false

instance : DecidableRel dateDesc :=
  fun a b => inferInstanceAs (Decidable (charsLt a.upload_date.data b.upload_date.data = false))

/-- The handler `list_files` (app.py lines 142-155). The Python sort is
stable, and a stable sort by a fixed key is determined extensionally, so
`List.insertionSort` by the same descending key (which inserts an earlier
element in front of every tied later one, hence is stable) computes the
same list. -/
def list_files (metadata : Store) : Nat × List FileRecord :=
  let files := List.insertionSort dateDesc (metadata.map Prod.snd)
  (files.length, files)

/-- One value of the `stats_by_date` dict in `stats`. -/
structure DayStat where
  count : Nat
  total_size : Nat
deriving Repr, DecidableEq

/-- One iteration of the `stats_by_date` loop (app.py lines 241-246):
create the entry (appended at the end, as dict insertion does) when the
day is new, then add 1 to its count and the size to its total. -/
def addToDate (acc : List (String × DayStat)) (date : String) (size : Nat) :
    List (String × DayStat) :=
  match acc with
  | [] => [(date, { count := 1, total_size := size })]
  | (d, s) :: rest =>
      if d = date then
        (d, { count := s.count + 1, total_size := s.total_size + size }) :: rest
      else (d, s) :: addToDate rest date size

/-- The full `stats_by_date` aggregation over the records of the store,
keyed by the first 10 characters of `upload_date`. -/
def statsByDate (records : List FileRecord) : List (String × DayStat) :=
  records.foldl (fun acc r => addToDate acc (r.upload_date.take 10) r.size) []

/-- The JSON body of the stats route. -/
structure StatsView where
  total_files : Nat
  total_size : Nat
  total_size_human : String
  stats_by_date : List (String × DayStat)
deriving Repr, DecidableEq

/-- The handler `stats` (app.py lines 232-253): pure aggregation over the
loaded store; it never writes the store or the filesystem back. -/
def stats (metadata : Store) : StatsView :=
  let total_size := ((metadata.map Prod.snd).map FileRecord.size).sum
  { total_files := metadata.length
    total_size := total_size
    total_size_human := format_size total_size
    stats_by_date := statsByDate (metadata.map Prod.snd) }

/-! ### Concrete sample states used by the witnesses -/

/-- Sample record of a stored text file. -/
def recA : FileRecord :=
  { original_name := "report.txt"
    unique_name := "report_20240101_120000_ab12cd34.txt"
    size := 5
    size_human := "5.0 B"
    upload_date := "2024-01-01T12:00:00"
    path := "2024/01/01/report_20240101_120000_ab12cd34.txt"
    subdir := "2024/01/01" }

/-- Second sample record, uploaded a day later. -/
def recB : FileRecord :=
  { original_name := "notes.txt"
    unique_name := "notes_20240102_090000_ffffeeee.txt"
    size := 1536
    size_human := "1.5 KB"
    upload_date := "2024-01-02T09:00:00"
    path := "2024/01/02/notes_20240102_090000_ffffeeee.txt"
    subdir := "2024/01/02" }

/-- Sample store holding the two records. -/
def sampleStore : Store :=
  [("report_20240101_120000_ab12cd34.txt", recA),
   ("notes_20240102_090000_ffffeeee.txt", recB)]

/-- The backing file of `recA`. -/
def entryA : FsEntry :=
  { dir := ["2024", "01", "01"], name := "report_20240101_120000_ab12cd34.txt" }

/-- The backing file of `recB`. -/
def entryB : FsEntry :=
  { dir := ["2024", "01", "02"], name := "notes_20240102_090000_ffffeeee.txt" }

/-- A physical file with no metadata entry. -/
def entryOrphan : FsEntry :=
  { dir := ["2024", "01", "03"], name := "orphan.txt" }

/-- Sample filesystem under the storage root. -/
def sampleFs : Fs := [entryA, entryB, entryOrphan]

/-- Record whose backing file at `path` is gone, but a file bearing the
record key as its base name sits elsewhere under the root. -/
def recGhost : FileRecord :=
  { original_name := "ghost.txt"
    unique_name := "ghost_20240103_000000_12345678.txt"
    size := 1
    size_human := "1.0 B"
    upload_date := "2024-01-03T00:00:00"
    path := "2024/01/03/missing.txt"
    subdir := "2024/01/03" }

/-- Store for the drifted-metadata scenario. -/
def ghostStore : Store := [("ghost_20240103_000000_12345678.txt", recGhost)]

/-- Filesystem for the drifted-metadata scenario: the recorded path is
absent, but a same-named file exists in another partition. -/
def ghostFs : Fs :=
  [entryOrphan, { dir := ["2024", "01", "04"], name := "ghost_20240103_000000_12345678.txt" }]

/-- Sample ambient inputs for an upload: identity sanitizer, fixed clock
and uuid readings. -/
def envSample : UploadEnv :=
  { secure := fun s => s
    timestamp := "20240105_101112"
    unique_id := "0a1b2c3d"
    date_subdir := ["2024", "01", "05"]
    iso_now := "2024-01-05T10:11:12.000000" }

/-! ### The persisted metadata document: the exact json.dump(indent=2) text and a json.load model for its grammar -/

/-- Decimal digit character. -/
def digitChar (d : Nat) : Char := Char.ofNat (48 + d)

/-- Decimal digits of n, most significant first, with explicit fuel so
the definition is structural. -/
def natCharsAux : Nat → Nat → List Char
  | 0, _ => []
  | fuel+1, n => if n < 10 then [digitChar n] else natCharsAux fuel (n / 10) ++ [digitChar (n % 10)]

/-- Decimal rendering of a nonnegative integer, as json.dump writes it. -/
def natChars (n : Nat) : List Char := natCharsAux (n + 1) n

/-- The digit-accumulating fold used by the number reader. -/
def digitsVal (cs : List Char) : Nat :=
  cs.foldl (fun acc c => acc * 10 + (c.toNat - 48)) 0

/-- JSON whitespace accepted by the reader between tokens. -/
def isJsonWs (c : Char) : Bool := c == ' ' || c == '\n' || c == '\t' || c == '\r'

/-- Skip JSON whitespace. -/
def skipWs (cs : List Char) : List Char := cs.dropWhile isJsonWs

/-- A character a JSON string field may hold without escaping: printable
ASCII other than the quote and the backslash. On such strings the writer
escapes nothing and the reader unescapes nothing. -/
def jsonSafeChar (c : Char) : Bool :=
  (32 <= c.toNat) && (c.toNat < 128) && !(c == '"') && !(c == '\\')

/-- Reader for a string literal without escapes: an opening quote, the
longest quote-free run, a closing quote. Agrees with the json.load string
scanner on every string the writer emits for a safe store. -/
def readString (cs : List Char) : Option (List Char × List Char) :=
  match cs with
  | [] => none
  | c :: rest =>
      if c = '"' then
        let content := rest.takeWhile (fun x => !(x == '"'))
        match rest.drop content.length with
        | c2 :: rest2 => if c2 = '"' then some (content, rest2) else none
        | [] => none
      else none

/-- Reader for a nonnegative integer literal: the longest digit run. -/
def readNat (cs : List Char) : Option (Nat × List Char) :=
  let ds := cs.takeWhile Char.isDigit
  if ds.isEmpty then none else some (digitsVal ds, cs.drop ds.length)

/-- A scalar JSON value occurring in a file record: a string or a
nonnegative integer. -/
inductive Scalar where
  | str (s : List Char)
  | num (n : Nat)
deriving Repr, DecidableEq

/-- Writer for a scalar, as json.dump emits it. -/
def renderScalar : Scalar → List Char
  | .str s => '"' :: s ++ ['"']
  | .num n => natChars n

/-- Reader for a scalar value: a string if it opens with a quote, else a
number. -/
def readScalar (cs : List Char) : Option (Scalar × List Char) :=
  match readString cs with
  | some (s, rest) => some (.str s, rest)
  | none =>
      match readNat cs with
      | some (n, rest) => some (.num n, rest)
      | none => none

/-- Well-formed scalar: a string of unescaped-representable characters. -/
def wfScalar : Scalar → Bool
  | .str s => s.all jsonSafeChar
  | .num _ => true

/-- The separator ",\n" placed between successive items by
json.dump with indent=2. -/
def joinComma : List (List Char) → List Char
  | [] => []
  | [x] => x
  | x :: y :: rest => x ++ ',' :: '\n' :: joinComma (y :: rest)

/-- Writer for one "key": value line at the given indentation, as
json.dump with indent=2 emits it. -/
def renderField (ind : List Char) (p : List Char × Scalar) : List Char :=
  ind ++ '"' :: p.1 ++ '"' :: ':' :: ' ' :: renderScalar p.2

/-- Reader loop for the members of an object of scalars, positioned after
the opening brace; fuel bounds the number of members. -/
def parseFieldsAux : Nat → List Char → Option (List (List Char × Scalar) × List Char)
  | 0, _ => none
  | fuel+1, cs =>
      match readString (skipWs cs) with
      | none => none
      | some (k, rest) =>
          match skipWs rest with
          | ':' :: rest2 =>
              (match readScalar (skipWs rest2) with
               | none => none
               | some (v, rest3) =>
                   match skipWs rest3 with
                   | ',' :: rest4 =>
                       (match parseFieldsAux fuel rest4 with
                        | some (fs, rest5) => some ((k, v) :: fs, rest5)
                        | none => none)
                   | '}' :: rest4 => some ([(k, v)], rest4)
                   | _ => none)
          | _ => none

/-- Two-space indentation of top-level entries under indent=2. -/
def sp2 : List Char := [' ', ' ']

/-- Four-space indentation of record fields under indent=2. -/
def sp4 : List Char := [' ', ' ', ' ', ' ']

/-- The field list of a record, in the insertion order of the dict
literal of app.py lines 111-119. -/
def recordFields (r : FileRecord) : List (List Char × Scalar) :=
  [("original_name".data, Scalar.str r.original_name.data),
   ("unique_name".data, Scalar.str r.unique_name.data),
   ("size".data, Scalar.num r.size),
   ("size_human".data, Scalar.str r.size_human.data),
   ("upload_date".data, Scalar.str r.upload_date.data),
   ("path".data, Scalar.str r.path.data),
   ("subdir".data, Scalar.str r.subdir.data)]

/-- Writer for an object of scalars at nesting depth one, as json.dump
with indent=2 emits it (fields are never empty for a record). -/
def renderRecordBody (flds : List (List Char × Scalar)) : List Char :=
  '{' :: '\n' :: (joinComma (flds.map (renderField sp4)) ++ '\n' :: sp2 ++ ['}'])

/-- Writer for one top-level entry line and its record object. -/
def renderEntry (p : String × FileRecord) : List Char :=
  sp2 ++ '"' :: p.1.data ++ '"' :: ':' :: ' ' :: renderRecordBody (recordFields p.2)

/-- The exact text save_metadata writes: json.dump(metadata, f, indent=2)
(app.py lines 39-41), at the character level. -/
def renderStoreChars (m : Store) : List Char :=
  match m with
  | [] => ['{', '}']
  | _ :: _ => '{' :: '\n' :: (joinComma (m.map renderEntry) ++ ['\n', '}'])

/-- Reader for a record object value (after whitespace): an empty object
or a brace-delimited member list. -/
def parseRecordVal (cs : List Char) : Option (List (List Char × Scalar) × List Char) :=
  match cs with
  | [] => none
  | c :: rest =>
      if c = '{' then
        match skipWs rest with
        | '}' :: rest2 => some ([], rest2)
        | _ => parseFieldsAux (rest.length + 1) rest
      else none

/-- Reader loop for the top-level members, positioned after the opening
brace; fuel bounds the number of entries. -/
def parseEntriesAux :
    Nat → List Char → Option (List (List Char × List (List Char × Scalar)) × List Char)
  | 0, _ => none
  | fuel+1, cs =>
      match readString (skipWs cs) with
      | none => none
      | some (k, rest) =>
          match skipWs rest with
          | ':' :: rest2 =>
              (match parseRecordVal (skipWs rest2) with
               | none => none
               | some (flds, rest3) =>
                   match skipWs rest3 with
                   | ',' :: rest4 =>
                       (match parseEntriesAux fuel rest4 with
                        | some (es, rest5) => some ((k, flds) :: es, rest5)
                        | none => none)
                   | '}' :: rest4 => some ([(k, flds)], rest4)
                   | _ => none)
          | _ => none

/-- The json.load model for a metadata document: a top-level object of
record objects, with arbitrary whitespace between tokens and nothing but
whitespace after the closing brace. -/
def parseStoreDoc (cs : List Char) :
    Option (List (List Char × List (List Char × Scalar))) :=
  match skipWs cs with
  | [] => none
  | c :: rest =>
      if c = '{' then
        match skipWs rest with
        | '}' :: rest2 => if (skipWs rest2).isEmpty then some [] else none
        | _ =>
            (match parseEntriesAux (rest.length + 1) rest with
             | some (es, rest3) => if (skipWs rest3).isEmpty then some es else none
             | none => none)
      else none

/-- The mapping content of a store: keys and field lists as the JSON
reader returns them. -/
def storeContent (m : Store) :
    List (List Char × List (List Char × Scalar)) :=
  m.map (fun p => (p.1.data, recordFields p.2))

/-- Record whose string fields are representable without escapes. -/
def wfRecord (r : FileRecord) : Bool :=
  r.original_name.data.all jsonSafeChar && r.unique_name.data.all jsonSafeChar &&
  r.size_human.data.all jsonSafeChar && r.upload_date.data.all jsonSafeChar &&
  r.path.data.all jsonSafeChar && r.subdir.data.all jsonSafeChar

/-- Store whose keys and records are representable without escapes; true
of everything the service writes (sanitized names, ISO dates, slash
paths, decimal sizes). -/
def wfStore (m : Store) : Bool :=
  m.all (fun p => p.1.data.all jsonSafeChar && wfRecord p.2)

/-! ### Helper lemmas on the store and the filesystem -/

theorem lookupStore_eq_none_of_not_mem (m : Store) (k : String)
    (h : k ∉ m.map Prod.fst) : lookupStore m k = none := by
  induction m with
  | nil => rfl
  | cons p rest ih =>
      obtain ⟨k1, v⟩ := p
      simp only [List.map_cons, List.mem_cons] at h
      push_neg at h
      simp only [lookupStore, if_neg (Ne.symm h.1), ih h.2]

theorem lookupStore_eraseKey_self (m : Store) (k : String)
    (h : (m.map Prod.fst).Nodup) : lookupStore (eraseKey m k) k = none := by
  induction m with
  | nil => rfl
  | cons p rest ih =>
      obtain ⟨k1, v⟩ := p
      simp only [List.map_cons, List.nodup_cons] at h
      by_cases hk : k1 = k
      · subst hk
        simp only [eraseKey, if_pos rfl]
        exact lookupStore_eq_none_of_not_mem rest k1 h.1
      · simp only [eraseKey, if_neg hk, lookupStore, if_neg hk]
        exact ih h.2

theorem lookupStore_eraseKey_ne (m : Store) (k k2 : String) (h : k2 ≠ k) :
    lookupStore (eraseKey m k) k2 = lookupStore m k2 := by
  induction m with
  | nil => rfl
  | cons p rest ih =>
      obtain ⟨k1, v⟩ := p
      by_cases hk : k1 = k
      · subst hk
        simp only [eraseKey, if_pos rfl, if_true, lookupStore, if_neg (Ne.symm h)]
      · simp only [eraseKey, if_neg hk, lookupStore]
        by_cases h2 : k1 = k2
        · simp only [if_pos h2]
        · simp only [if_neg h2, ih]

theorem walkFind_sound (fs : Fs) (filename : String) (e : FsEntry)
    (h : walkFind fs filename = some e) : e ∈ fs ∧ e.name = filename := by
  induction fs with
  | nil => exact absurd h (by simp [walkFind])
  | cons e0 rest ih =>
      by_cases h0 : e0.name = filename
      · simp only [walkFind, if_pos h0, Option.some.injEq] at h
        subst h
        exact ⟨List.mem_cons_self _ _, h0⟩
      · simp only [walkFind, if_neg h0] at h
        obtain ⟨hm, hn⟩ := ih h
        exact ⟨List.mem_cons_of_mem _ hm, hn⟩

theorem walkFind_eq_none (fs : Fs) (filename : String) :
    walkFind fs filename = none ↔ ∀ e ∈ fs, e.name ≠ filename := by
  induction fs with
  | nil => simp [walkFind]
  | cons e0 rest ih =>
      by_cases h0 : e0.name = filename
      · simp [walkFind, if_pos h0, h0]
      · simp [walkFind, if_neg h0, ih, h0]

theorem walkFind_isSome_of_exists (fs : Fs) (filename : String)
    (h : ∃ e ∈ fs, e.name = filename) : ∃ e2, walkFind fs filename = some e2 := by
  cases hw : walkFind fs filename with
  | some e2 => exact ⟨e2, rfl⟩
  | none =>
      obtain ⟨e, he, hn⟩ := h
      exact absurd hn ((walkFind_eq_none fs filename).mp hw e he)

theorem mem_removeFile_of_ne (fs : Fs) (p : String) (e : FsEntry)
    (he : e ∈ fs) (hne : entryPath e ≠ p) : e ∈ removeFile fs p := by
  simp only [removeFile, List.mem_filter, Bool.not_eq_eq_eq_not, Bool.not_true,
    beq_eq_false_iff_ne, ne_eq]
  exact ⟨he, hne⟩

theorem removeFile_subset (fs : Fs) (p : String) : ∀ e ∈ removeFile fs p, e ∈ fs := by
  intro e he
  exact (List.mem_filter.mp he).1

theorem fileExists_removeFile (fs : Fs) (p : String) :
    fileExists (removeFile fs p) p = false := by
  simp only [fileExists, removeFile, List.any_eq_false, List.mem_filter,
    Bool.not_eq_eq_eq_not, Bool.not_true, beq_eq_false_iff_ne, ne_eq, and_imp]
  intro e _ h
  simpa using h

/-! ### C1: download resolution -/

/-- C1: for every identifier, the download handler first looks the
identifier up as a key in the metadata store; if found and the file at the
record path exists under the storage root, it returns that file as an
attachment with the record `original_name` as the suggested filename; if
the key is not found in the store, it falls back to a recursive scan of
the storage root and, on an exact filename match, returns that file with
the scanned filename itself as the suggested name; if neither lookup
succeeds it fails with a 404 not-found error. -/
theorem C1_download_resolution (metadata : Store) (fs : Fs) (filename : String) :
    (∀ rec, lookupStore metadata filename = some rec →
      fileExists fs rec.path = true →
      download_file metadata fs filename =
        DownloadResult.attachment rec.path rec.original_name) ∧
    (lookupStore metadata filename = none →
      (∃ e ∈ fs, e.name = filename) →
      ∃ e ∈ fs, e.name = filename ∧
        download_file metadata fs filename =
          DownloadResult.attachment (entryPath e) filename) ∧
    (lookupStore metadata filename = none →
      (∀ e ∈ fs, e.name ≠ filename) →
      download_file metadata fs filename = DownloadResult.notFound) := by
  refine ⟨?_, ?_, ?_⟩
  · intro rec hlook hex
    simp only [download_file, hlook, hex, if_true]
  · intro hnone hex
    obtain ⟨e2, hw⟩ := walkFind_isSome_of_exists fs filename hex
    obtain ⟨hmem, hname⟩ := walkFind_sound fs filename e2 hw
    exact ⟨e2, hmem, hname, by simp only [download_file, hnone, hw]⟩
  · intro hnone hall
    have hw : walkFind fs filename = none := (walkFind_eq_none fs filename).mpr hall
    simp only [download_file, hnone, hw]

/-- Witness for C1 at the sample states: a stored identifier downloads
with the recorded original name, an orphan file is found by the scan, and
an unknown identifier yields 404. -/
theorem C1_download_resolution_witness :
    download_file sampleStore sampleFs "notes_20240102_090000_ffffeeee.txt" =
      DownloadResult.attachment "2024/01/02/notes_20240102_090000_ffffeeee.txt" "notes.txt" ∧
    (∃ e ∈ sampleFs, e.name = "orphan.txt" ∧
      download_file sampleStore sampleFs "orphan.txt" =
        DownloadResult.attachment (entryPath e) "orphan.txt") ∧
    download_file sampleStore sampleFs "nothere.txt" = DownloadResult.notFound := by
  refine ⟨?_, ?_, ?_⟩
  · exact (C1_download_resolution sampleStore sampleFs
      "notes_20240102_090000_ffffeeee.txt").1 recB (by decide) (by decide)
  · exact (C1_download_resolution sampleStore sampleFs "orphan.txt").2.1
      (by decide) ⟨entryOrphan, by decide, by decide⟩
  · exact (C1_download_resolution sampleStore sampleFs "nothere.txt").2.2
      (by decide) (by decide)

/-! ### C9: fallback when the recorded file is missing -/

/-- C9: when an identifier is present as a key in the metadata store but
the file at the record path does not exist, the download handler does not
immediately return 404; it falls through to the recursive directory scan
of the storage root, and succeeds (serving a file whose name matches
exactly, with the scanned filename as the suggested download name)
whenever such a file exists anywhere under the storage root. -/
theorem C9_download_fallback_on_missing_file (metadata : Store) (fs : Fs)
    (filename : String) (rec : FileRecord)
    (hlook : lookupStore metadata filename = some rec)
    (hmiss : fileExists fs rec.path = false) :
    ((∃ e ∈ fs, e.name = filename) →
      ∃ e ∈ fs, e.name = filename ∧
        download_file metadata fs filename =
          DownloadResult.attachment (entryPath e) filename) ∧
    (download_file metadata fs filename = DownloadResult.notFound ↔
      ∀ e ∈ fs, e.name ≠ filename) := by
  constructor
  · intro hex
    obtain ⟨e2, hw⟩ := walkFind_isSome_of_exists fs filename hex
    obtain ⟨hmem, hname⟩ := walkFind_sound fs filename e2 hw
    exact ⟨e2, hmem, hname, by simp only [download_file, hlook, hmiss, Bool.false_eq_true,
      if_false, hw]⟩
  · constructor
    · intro hnf
      rw [← walkFind_eq_none]
      cases hw : walkFind fs filename with
      | none => rfl
      | some e2 =>
          rw [show download_file metadata fs filename =
            DownloadResult.attachment (entryPath e2) filename by
              simp only [download_file, hlook, hmiss, Bool.false_eq_true, if_false, hw]] at hnf
          exact absurd hnf (by simp)
    · intro hall
      have hw : walkFind fs filename = none := (walkFind_eq_none fs filename).mpr hall
      simp only [download_file, hlook, hmiss, Bool.false_eq_true, if_false, hw]

/-- Witness for C9: the ghost record points at a missing path, yet the
download succeeds through the scan, serving the same-named file from the
other partition. -/
theorem C9_download_fallback_on_missing_file_witness :
    ∃ e ∈ ghostFs, e.name = "ghost_20240103_000000_12345678.txt" ∧
      download_file ghostStore ghostFs "ghost_20240103_000000_12345678.txt" =
        DownloadResult.attachment (entryPath e) "ghost_20240103_000000_12345678.txt" :=
  (C9_download_fallback_on_missing_file ghostStore ghostFs
      "ghost_20240103_000000_12345678.txt" recGhost (by decide) (by decide)).1
    ⟨{ dir := ["2024", "01", "04"], name := "ghost_20240103_000000_12345678.txt" },
      by decide, by decide⟩

/-! ### C7: delete of an unknown identifier -/

/-- C7: for every identifier that is not a key in the metadata store, the
delete handler fails with a 404 not-found error and leaves the metadata
store and all stored files unchanged. -/
theorem C7_delete_unknown (metadata : Store) (fs : Fs) (filename : String)
    (h : lookupStore metadata filename = none) :
    delete_file metadata fs filename = (DeleteResult.notFound, metadata, fs) := by
  simp only [delete_file, h]

/-- Witness for C7 at the sample state. -/
theorem C7_delete_unknown_witness :
    delete_file sampleStore sampleFs "nothere.txt" =
      (DeleteResult.notFound, sampleStore, sampleFs) :=
  C7_delete_unknown sampleStore sampleFs "nothere.txt" (by decide)

/-! ### C3: delete of a known identifier -/

/-- C3: for every identifier that is a key in the metadata store, the
delete handler removes the backing file if it exists (a missing backing
file is not an error), removes exactly that store entry, persists the
store, and returns success; the resulting store equals the prior store
with only that key removed, every other record unchanged, and no other
stored file is touched. -/
theorem C3_delete_known (metadata : Store) (fs : Fs) (filename : String)
    (rec : FileRecord) (hnodup : (metadata.map Prod.fst).Nodup)
    (hlook : lookupStore metadata filename = some rec) :
    (delete_file metadata fs filename).1 = DeleteResult.success ∧
    (delete_file metadata fs filename).2.1 = eraseKey metadata filename ∧
    lookupStore (delete_file metadata fs filename).2.1 filename = none ∧
    (∀ k, k ≠ filename →
      lookupStore (delete_file metadata fs filename).2.1 k = lookupStore metadata k) ∧
    fileExists (delete_file metadata fs filename).2.2 rec.path = false ∧
    (∀ e ∈ fs, entryPath e ≠ rec.path → e ∈ (delete_file metadata fs filename).2.2) ∧
    (∀ e ∈ (delete_file metadata fs filename).2.2, e ∈ fs) := by
  have hout : delete_file metadata fs filename =
      (DeleteResult.success, eraseKey metadata filename,
        if fileExists fs rec.path then removeFile fs rec.path else fs) := by
    simp only [delete_file, hlook]
  rw [hout]
  refine ⟨rfl, rfl, lookupStore_eraseKey_self metadata filename hnodup,
    fun k hk => lookupStore_eraseKey_ne metadata filename k hk, ?_, ?_, ?_⟩
  · by_cases hex : fileExists fs rec.path
    · simp only [hex, if_true, fileExists_removeFile]
    · simp only [hex, if_false]
      exact Bool.not_eq_true _ ▸ (by simpa using hex)
  · intro e he hne
    by_cases hex : fileExists fs rec.path
    · simp only [hex, if_true]
      exact mem_removeFile_of_ne fs rec.path e he hne
    · simpa only [hex, if_false] using he
  · intro e he
    by_cases hex : fileExists fs rec.path
    · simp only [hex, if_true] at he
      exact removeFile_subset fs rec.path e he
    · simpa only [hex, if_false] using he

/-- Witness for C3: deleting the first sample record succeeds, drops only
its key, and removes only its backing file. -/
theorem C3_delete_known_witness :
    (delete_file sampleStore sampleFs "report_20240101_120000_ab12cd34.txt").1 =
      DeleteResult.success ∧
    lookupStore (delete_file sampleStore sampleFs
      "report_20240101_120000_ab12cd34.txt").2.1
      "report_20240101_120000_ab12cd34.txt" = none ∧
    lookupStore (delete_file sampleStore sampleFs
      "report_20240101_120000_ab12cd34.txt").2.1
      "notes_20240102_090000_ffffeeee.txt" =
      lookupStore sampleStore "notes_20240102_090000_ffffeeee.txt" ∧
    fileExists (delete_file sampleStore sampleFs
      "report_20240101_120000_ab12cd34.txt").2.2 recA.path = false ∧
    entryB ∈ (delete_file sampleStore sampleFs
      "report_20240101_120000_ab12cd34.txt").2.2 := by
  have h := C3_delete_known sampleStore sampleFs
    "report_20240101_120000_ab12cd34.txt" recA (by decide) (by decide)
  exact ⟨h.1, h.2.2.1, h.2.2.2.1 "notes_20240102_090000_ffffeeee.txt" (by decide),
    h.2.2.2.2.1, h.2.2.2.2.2.1 entryB (by decide) (by decide)⟩

/-! ### Order facts about the Python string comparison -/

theorem charsLt_iff_lex : ∀ a b : List Char, charsLt a b = true ↔ List.Lex (· < ·) a b
  | [], [] => by
      simp only [charsLt, Bool.false_eq_true, false_iff]
      exact fun h => by cases h
  | [], b :: bs => by
      simp only [charsLt, true_iff]
      exact List.Lex.nil
  | a :: as, [] => by
      simp only [charsLt, Bool.false_eq_true, false_iff]
      exact fun h => by cases h
  | a :: as, b :: bs => by
      by_cases hab : a < b
      · simp only [charsLt, if_pos hab, true_iff]
        exact List.Lex.rel hab
      · by_cases hba : b < a
        · simp only [charsLt, if_neg hab, if_pos hba, Bool.false_eq_true, false_iff]
          intro h
          cases h with
          | cons h2 => exact absurd hba (lt_irrefl _)
          | rel h2 => exact absurd h2 hab
        · have heq : a = b := le_antisymm (not_lt.mp hba) (not_lt.mp hab)
          subst heq
          simp only [charsLt, if_neg hab, if_neg hba]
          rw [charsLt_iff_lex as bs]
          exact (List.Lex.cons_iff).symm

theorem charsLt_asymm (a b : List Char) (h : charsLt a b = true) : charsLt b a = false := by
  rw [← Bool.not_eq_true, charsLt_iff_lex]
  rw [charsLt_iff_lex] at h
  intro h2
  exact absurd h (asymm h2)

theorem charsLt_false_trans (a b c : List Char) (h1 : charsLt a b = false)
    (h2 : charsLt b c = false) : charsLt a c = false := by
  rw [← Bool.not_eq_true, charsLt_iff_lex] at h1 h2 ⊢
  intro hac
  rcases @trichotomous (List Char) (List.Lex (· < ·)) _ a b with hab | hab | hab
  · exact h1 hab
  · exact h2 (hab ▸ hac)
  · exact h2 (Trans.trans hab hac)

theorem charsLt_connex (a b : List Char) (h1 : charsLt a b = false)
    (h2 : charsLt b a = false) : a = b := by
  rw [← Bool.not_eq_true, charsLt_iff_lex] at h1 h2
  rcases @trichotomous (List Char) (List.Lex (· < ·)) _ a b with hab | hab | hab
  · exact absurd hab h1
  · exact hab
  · exact absurd hab h2

/-! ### C6: human-readable size formatting -/

/-- C6: for every non-negative integer size, format_size repeatedly
divides by 1024 through the units B, KB, MB, GB, stopping at the first
unit where the remaining value is below 1024 and rendering it with one
decimal place followed by the unit, otherwise falling through to TB; in
particular 1536 formats as "1.5 KB", 0 as "0.0 B", and 1073741824 as
"1.0 GB". -/
theorem append_unit (a u v : String) (h : " " ++ u = v) : a ++ " " ++ u = a ++ v := by
  rw [String.append_assoc, h]

theorem C6_format_size_closed_form (size : Nat) :
    (size < 1024 → format_size size = render1 size 1 ++ " B") ∧
    (1024 ≤ size → size < 1048576 → format_size size = render1 size 1024 ++ " KB") ∧
    (1048576 ≤ size → size < 1073741824 →
      format_size size = render1 size 1048576 ++ " MB") ∧
    (1073741824 ≤ size → size < 1099511627776 →
      format_size size = render1 size 1073741824 ++ " GB") ∧
    (1099511627776 ≤ size → format_size size = render1 size 1099511627776 ++ " TB") ∧
    format_size 1536 = "1.5 KB" ∧
    format_size 0 = "0.0 B" ∧
    format_size 1073741824 = "1.0 GB" := by
  refine ⟨?_, ?_, ?_, ?_, ?_, by decide, by decide, by decide⟩
  · intro h
    simp only [format_size, fsGo, Nat.mul_one, if_pos h]
    exact append_unit _ _ _ (by decide)
  · intro h1 h2
    have n1 : ¬ size < 1024 := by omega
    simp only [format_size, fsGo, Nat.mul_one, n1, if_false,
      show 1024 * 1024 = 1048576 by rfl, if_pos h2]
    exact append_unit _ _ _ (by decide)
  · intro h1 h2
    have n1 : ¬ size < 1024 := by omega
    have n2 : ¬ size < 1048576 := by omega
    simp only [format_size, fsGo, Nat.mul_one, show 1024 * 1024 = 1048576 by rfl,
      show 1024 * 1048576 = 1073741824 by rfl, n1, n2, if_false, if_pos h2]
    exact append_unit _ _ _ (by decide)
  · intro h1 h2
    have n1 : ¬ size < 1024 := by omega
    have n2 : ¬ size < 1048576 := by omega
    have n3 : ¬ size < 1073741824 := by omega
    simp only [format_size, fsGo, Nat.mul_one, show 1024 * 1024 = 1048576 by rfl,
      show 1024 * 1048576 = 1073741824 by rfl,
      show 1024 * 1073741824 = 1099511627776 by rfl, n1, n2, n3, if_false, if_pos h2]
    exact append_unit _ _ _ (by decide)
  · intro h1
    have n1 : ¬ size < 1024 := by omega
    have n2 : ¬ size < 1048576 := by omega
    have n3 : ¬ size < 1073741824 := by omega
    have n4 : ¬ size < 1099511627776 := by omega
    simp only [format_size, fsGo, Nat.mul_one, show 1024 * 1024 = 1048576 by rfl,
      show 1024 * 1048576 = 1073741824 by rfl,
      show 1024 * 1073741824 = 1099511627776 by rfl, n1, n2, n3, n4, if_false]

/-- Witness for C6 in the KB range. -/
theorem C6_format_size_closed_form_witness :
    format_size 1536 = render1 1536 1024 ++ " KB" ∧
    render1 1536 1024 ++ " KB" = "1.5 KB" :=
  ⟨(C6_format_size_closed_form 1536).2.1 (by norm_num) (by norm_num), by decide⟩

/-! ### C2: upload validation -/

/-- C2: for every upload request, the handler applies exactly these checks
in order: (1) if no file field is present it fails with a 400 no-file-part
error; (2) if the file name is empty it fails with a 400 no-selected-file
error; (3) if the name extension (case-insensitive, the text after the
last dot) is not in the allowed set it fails with a 400
file-type-not-allowed error reporting the allowed set; and on any such
400 rejection no file is written to disk and no metadata entry is
created (the returned store and filesystem equal the inputs). -/
theorem C2_upload_validation (req : UploadRequest) (env : UploadEnv)
    (metadata : Store) (fs : Fs) :
    (req.file = none →
      upload_file req env metadata fs =
        (UploadResult.badRequest UploadError.noFilePart, metadata, fs)) ∧
    (∀ f, req.file = some f → f.filename = "" →
      upload_file req env metadata fs =
        (UploadResult.badRequest UploadError.noSelectedFile, metadata, fs)) ∧
    (∀ f, req.file = some f → f.filename ≠ "" →
      lowerStr (extAfterLastDot f.filename) ∉ ALLOWED_EXTENSIONS →
      upload_file req env metadata fs =
        (UploadResult.badRequest (UploadError.fileTypeNotAllowed ALLOWED_EXTENSIONS),
          metadata, fs)) := by
  refine ⟨?_, ?_, ?_⟩
  · intro h
    simp only [upload_file, h]
  · intro f hf hname
    simp only [upload_file, hf, hname, if_pos rfl, if_true]
  · intro f hf hne hno
    have hc : ALLOWED_EXTENSIONS.contains (lowerStr (extAfterLastDot f.filename)) = false := by
      simpa using hno
    have hal : allowed_file f.filename = false := by
      unfold allowed_file
      rw [hc]
      simp
    simp [upload_file, hf, hne, hal]

/-- Witness for C2: the three rejections at concrete requests, with the
sample state untouched. -/
theorem C2_upload_validation_witness :
    upload_file { file := none } envSample sampleStore sampleFs =
      (UploadResult.badRequest UploadError.noFilePart, sampleStore, sampleFs) ∧
    upload_file { file := some { filename := "", size := 0 } } envSample
        sampleStore sampleFs =
      (UploadResult.badRequest UploadError.noSelectedFile, sampleStore, sampleFs) ∧
    upload_file { file := some { filename := "virus.exe", size := 10 } } envSample
        sampleStore sampleFs =
      (UploadResult.badRequest (UploadError.fileTypeNotAllowed ALLOWED_EXTENSIONS),
        sampleStore, sampleFs) := by
  refine ⟨?_, ?_, ?_⟩
  · exact (C2_upload_validation { file := none } envSample sampleStore sampleFs).1 rfl
  · exact (C2_upload_validation _ envSample sampleStore sampleFs).2.1
      { filename := "", size := 0 } rfl rfl
  · exact (C2_upload_validation _ envSample sampleStore sampleFs).2.2
      { filename := "virus.exe", size := 10 } rfl (by decide) (by decide)

/-! ### C10: filenames without a dot -/

/-- C10 counterexample: an upload whose client-supplied filename is the
empty string contains no dot, yet it is rejected with the
no-selected-file error, not with the file-type-not-allowed error the
claim asserts for every dotless filename. -/
theorem C10_counterexample_empty_name :
    ("" : String).data.contains '.' = false ∧
    (upload_file { file := some { filename := "", size := 7 } } envSample
        sampleStore sampleFs).1 = UploadResult.badRequest UploadError.noSelectedFile ∧
    (upload_file { file := some { filename := "", size := 7 } } envSample
        sampleStore sampleFs).1 ≠
      UploadResult.badRequest (UploadError.fileTypeNotAllowed ALLOWED_EXTENSIONS) := by
  exact ⟨rfl, by decide, by decide⟩

/-- C10 (amended): for every upload whose client-supplied filename is
non-empty and contains no dot character at all, the extension check
returns false and the upload is rejected with the 400
file-type-not-allowed error, even though such a name has no extension to
test against the allowed set. -/
theorem C10_no_dot_rejected (env : UploadEnv) (metadata : Store) (fs : Fs)
    (f : UploadedFile) (hne : f.filename ≠ "")
    (hdot : f.filename.data.contains '.' = false) :
    allowed_file f.filename = false ∧
    upload_file { file := some f } env metadata fs =
      (UploadResult.badRequest (UploadError.fileTypeNotAllowed ALLOWED_EXTENSIONS),
        metadata, fs) := by
  have hal : allowed_file f.filename = false := by
    unfold allowed_file
    rw [hdot]
    simp
  refine ⟨hal, ?_⟩
  simp [upload_file, hne, hal]

/-- Witness for the amended C10 at the dotless name README. -/
theorem C10_no_dot_rejected_witness :
    allowed_file "README" = false ∧
    upload_file { file := some { filename := "README", size := 3 } } envSample
        sampleStore sampleFs =
      (UploadResult.badRequest (UploadError.fileTypeNotAllowed ALLOWED_EXTENSIONS),
        sampleStore, sampleFs) :=
  C10_no_dot_rejected envSample sampleStore sampleFs
    { filename := "README", size := 3 } (by decide) (by decide)

/-! ### C5: listing order -/

/-- C5: for every metadata store, the list operation returns the count of
all records and the sequence of all records (a permutation of the store
values) ordered by upload_date descending under the Python string order;
for any set of records with pairwise distinct upload_date values the
returned sequence is strictly descending, hence exactly the descending
sort. -/
theorem C5_list_order (metadata : Store) :
    (list_files metadata).1 = metadata.length ∧
    (list_files metadata).2.Perm (metadata.map Prod.snd) ∧
    (list_files metadata).2.Pairwise dateDesc ∧
    ((metadata.map Prod.snd).Pairwise
        (fun a b => a.upload_date ≠ b.upload_date) →
      (list_files metadata).2.Pairwise
        (fun a b => charsLt b.upload_date.data a.upload_date.data = true)) := by
  have hperm : (List.insertionSort dateDesc (metadata.map Prod.snd)).Perm
      (metadata.map Prod.snd) := List.perm_insertionSort dateDesc _
  haveI htot : IsTotal FileRecord dateDesc := ⟨fun a b => by
    by_cases h : charsLt a.upload_date.data b.upload_date.data = true
    · exact Or.inr (charsLt_asymm _ _ h)
    · exact Or.inl (by simpa using h)⟩
  haveI htrans : IsTrans FileRecord dateDesc :=
    ⟨fun a b c h1 h2 => charsLt_false_trans _ _ _ h1 h2⟩
  have hsorted : (List.insertionSort dateDesc (metadata.map Prod.snd)).Pairwise dateDesc :=
    List.sorted_insertionSort dateDesc _
  refine ⟨?_, hperm, hsorted, ?_⟩
  · show (List.insertionSort dateDesc (metadata.map Prod.snd)).length = metadata.length
    rw [hperm.length_eq, List.length_map]
  · intro hdist
    have hdist2 : (List.insertionSort dateDesc (metadata.map Prod.snd)).Pairwise
        (fun a b => a.upload_date ≠ b.upload_date) :=
      (List.Perm.pairwise_iff (fun h => Ne.symm h) hperm).mpr hdist
    refine (hsorted.and hdist2).imp ?_
    intro a b h
    rcases h with ⟨hd, hne⟩
    by_cases hba : charsLt b.upload_date.data a.upload_date.data = true
    · exact hba
    · exact absurd
        (congrArg String.mk (charsLt_connex _ _ hd (by simpa using hba))) hne

/-- Witness for C5 at the sample store: two records, strictly descending
output. -/
theorem C5_list_order_witness :
    (list_files sampleStore).1 = 2 ∧
    (list_files sampleStore).2.Pairwise
      (fun a b => charsLt b.upload_date.data a.upload_date.data = true) := by
  refine ⟨by decide, ?_⟩
  exact (C5_list_order sampleStore).2.2.2 (by decide)

/-! ### C4: stats identities -/

theorem counts_addToDate (acc : List (String × DayStat)) (d : String) (s : Nat) :
    ((addToDate acc d s).map (fun p => p.2.count)).sum =
      (acc.map (fun p => p.2.count)).sum + 1 := by
  induction acc with
  | nil => simp [addToDate]
  | cons q rest ih =>
      obtain ⟨dq, stq⟩ := q
      by_cases h : dq = d
      · simp only [addToDate, if_pos h, List.map_cons, List.sum_cons]
        omega
      · simp only [addToDate, if_neg h, List.map_cons, List.sum_cons, ih]
        omega

theorem sizes_addToDate (acc : List (String × DayStat)) (d : String) (s : Nat) :
    ((addToDate acc d s).map (fun p => p.2.total_size)).sum =
      (acc.map (fun p => p.2.total_size)).sum + s := by
  induction acc with
  | nil => simp [addToDate]
  | cons q rest ih =>
      obtain ⟨dq, stq⟩ := q
      by_cases h : dq = d
      · simp only [addToDate, if_pos h, List.map_cons, List.sum_cons]
        omega
      · simp only [addToDate, if_neg h, List.map_cons, List.sum_cons, ih]
        omega

theorem counts_foldl : ∀ (l : List FileRecord) (acc : List (String × DayStat)),
    ((l.foldl (fun a r => addToDate a (r.upload_date.take 10) r.size) acc).map
      (fun p => p.2.count)).sum = (acc.map (fun p => p.2.count)).sum + l.length
  | [], acc => by simp
  | r :: l, acc => by
      simp only [List.foldl_cons, List.length_cons]
      rw [counts_foldl l _, counts_addToDate]
      omega

theorem sizes_foldl : ∀ (l : List FileRecord) (acc : List (String × DayStat)),
    ((l.foldl (fun a r => addToDate a (r.upload_date.take 10) r.size) acc).map
      (fun p => p.2.total_size)).sum =
      (acc.map (fun p => p.2.total_size)).sum + (l.map FileRecord.size).sum
  | [], acc => by simp
  | r :: l, acc => by
      simp only [List.foldl_cons, List.map_cons, List.sum_cons]
      rw [sizes_foldl l _, sizes_addToDate]
      omega

theorem key_addToDate (acc : List (String × DayStat)) (d : String) (s : Nat)
    (p : String × DayStat) (hp : p ∈ addToDate acc d s) :
    p.1 = d ∨ ∃ q ∈ acc, p.1 = q.1 := by
  induction acc with
  | nil =>
      simp only [addToDate, List.mem_singleton] at hp
      exact Or.inl (by rw [hp])
  | cons q rest ih =>
      obtain ⟨dq, stq⟩ := q
      by_cases h : dq = d
      · simp only [addToDate, if_pos h, List.mem_cons] at hp
        rcases hp with hp | hp
        · exact Or.inl (by rw [hp, h])
        · exact Or.inr ⟨p, List.mem_cons_of_mem _ hp, rfl⟩
      · simp only [addToDate, if_neg h, List.mem_cons] at hp
        rcases hp with hp | hp
        · exact Or.inr ⟨(dq, stq), List.mem_cons_self _ _, by rw [hp]⟩
        · rcases ih hp with h2 | ⟨q2, hq2, he⟩
          · exact Or.inl h2
          · exact Or.inr ⟨q2, List.mem_cons_of_mem _ hq2, he⟩

theorem key_foldl : ∀ (l : List FileRecord) (acc : List (String × DayStat))
    (p : String × DayStat),
    p ∈ l.foldl (fun a r => addToDate a (r.upload_date.take 10) r.size) acc →
    (∃ q ∈ acc, p.1 = q.1) ∨ ∃ r ∈ l, p.1 = r.upload_date.take 10
  | [], acc, p => by
      intro hp
      exact Or.inl ⟨p, hp, rfl⟩
  | r :: l, acc, p => by
      intro hp
      simp only [List.foldl_cons] at hp
      rcases key_foldl l _ p hp with ⟨q, hq, he⟩ | ⟨r2, hr2, he⟩
      · rcases key_addToDate acc (r.upload_date.take 10) r.size q hq with h2 | ⟨q2, hq2, he2⟩
        · exact Or.inr ⟨r, List.mem_cons_self _ _, he.trans h2⟩
        · exact Or.inl ⟨q2, hq2, he.trans he2⟩
      · exact Or.inr ⟨r2, List.mem_cons_of_mem _ hr2, he⟩

/-- C4: for every metadata store, the stats handler returns total_files
equal to the store entry count, total_size equal to the sum of all record
size fields, a human rendering of that total, and a per-day breakdown
grouped by the first 10 characters of upload_date (every group key is the
day of some record); the per-day counts sum to total_files and the
per-day sizes sum to total_size. The handler is pure aggregation: it is a
function of the loaded store alone and returns no modified state. -/
theorem C4_stats_identities (metadata : Store) :
    (stats metadata).total_files = metadata.length ∧
    (stats metadata).total_size = ((metadata.map Prod.snd).map FileRecord.size).sum ∧
    (stats metadata).total_size_human = format_size ((stats metadata).total_size) ∧
    ((stats metadata).stats_by_date.map (fun p => p.2.count)).sum =
      (stats metadata).total_files ∧
    ((stats metadata).stats_by_date.map (fun p => p.2.total_size)).sum =
      (stats metadata).total_size ∧
    (∀ p ∈ (stats metadata).stats_by_date,
      ∃ r ∈ metadata.map Prod.snd, p.1 = r.upload_date.take 10) := by
  refine ⟨rfl, rfl, rfl, ?_, ?_, ?_⟩
  · show ((statsByDate (metadata.map Prod.snd)).map (fun p => p.2.count)).sum =
      metadata.length
    rw [statsByDate, counts_foldl]
    simp
  · show ((statsByDate (metadata.map Prod.snd)).map (fun p => p.2.total_size)).sum =
      ((metadata.map Prod.snd).map FileRecord.size).sum
    rw [statsByDate, sizes_foldl]
    simp
  · intro p hp
    have hp2 : p ∈ statsByDate (metadata.map Prod.snd) := hp
    rw [statsByDate] at hp2
    rcases key_foldl (metadata.map Prod.snd) [] p hp2 with ⟨q, hq, _⟩ | ⟨r, hr, he⟩
    · exact absurd hq (List.not_mem_nil q)
    · exact ⟨r, hr, he⟩

/-- Witness for C4 at the sample store: two records on two days. -/
theorem C4_stats_identities_witness :
    (stats sampleStore).total_files = 2 ∧
    ((stats sampleStore).stats_by_date.map (fun p => p.2.count)).sum = 2 ∧
    ((stats sampleStore).stats_by_date.map (fun p => p.2.total_size)).sum = 1541 ∧
    (∃ r ∈ sampleStore.map Prod.snd, ("2024-01-01", DayStat.mk 1 5).1 =
      r.upload_date.take 10) := by
  have h := C4_stats_identities sampleStore
  refine ⟨h.1.trans (by decide), ?_, ?_, ?_⟩
  · rw [h.2.2.2.1, h.1]
    decide
  · rw [h.2.2.2.2.1, h.2.1]
    decide
  · exact h.2.2.2.2.2 ("2024-01-01", DayStat.mk 1 5) (by decide)

/-! ### C8: metadata document round trip -/

theorem digitChar_toNat (d : Nat) (h : d < 10) : (digitChar d).toNat = 48 + d := by
  interval_cases d <;> rfl

theorem digitChar_isDigit (d : Nat) (h : d < 10) : (digitChar d).isDigit = true := by
  interval_cases d <;> rfl

theorem natCharsAux_ne_nil (fuel n : Nat) (h : n < fuel) : natCharsAux fuel n ≠ [] := by
  cases fuel with
  | zero => omega
  | succ f =>
      by_cases h10 : n < 10
      · simp [natCharsAux, h10]
      · simp [natCharsAux, h10]

theorem natChars_ne_nil (n : Nat) : natChars n ≠ [] :=
  natCharsAux_ne_nil (n + 1) n (by omega)

theorem natCharsAux_all_digit : ∀ (fuel n : Nat), n < fuel →
    ∀ c ∈ natCharsAux fuel n, c.isDigit = true
  | 0, _, h => by omega
  | fuel+1, n, h => by
      by_cases h10 : n < 10
      · simp only [natCharsAux, if_pos h10, List.mem_singleton]
        intro c hc
        rw [hc]
        exact digitChar_isDigit n h10
      · simp only [natCharsAux, if_neg h10, List.mem_append, List.mem_singleton]
        intro c hc
        rcases hc with hc | hc
        · exact natCharsAux_all_digit fuel (n / 10) (by omega) c hc
        · rw [hc]
          exact digitChar_isDigit (n % 10) (by omega)

theorem natChars_all_digit (n : Nat) : ∀ c ∈ natChars n, c.isDigit = true :=
  natCharsAux_all_digit (n + 1) n (by omega)

theorem digitsVal_append_singleton (xs : List Char) (c : Char) :
    digitsVal (xs ++ [c]) = (digitsVal xs) * 10 + (c.toNat - 48) := by
  simp [digitsVal, List.foldl_append]

theorem natCharsAux_val : ∀ (fuel n : Nat), n < fuel → digitsVal (natCharsAux fuel n) = n
  | 0, _, h => by omega
  | fuel+1, n, h => by
      by_cases h10 : n < 10
      · simp only [natCharsAux, if_pos h10]
        show digitsVal [digitChar n] = n
        simp [digitsVal, digitChar_toNat n h10]
      · simp only [natCharsAux, if_neg h10, digitsVal_append_singleton,
          natCharsAux_val fuel (n / 10) (by omega), digitChar_toNat (n % 10) (by omega)]
        omega

theorem natChars_val (n : Nat) : digitsVal (natChars n) = n :=
  natCharsAux_val (n + 1) n (by omega)

theorem skipWs_cons (c : Char) (cs : List Char) :
    skipWs (c :: cs) = if isJsonWs c then skipWs cs else c :: cs := by
  simp only [skipWs, List.dropWhile_cons]

theorem skipWs_ws_cons (c : Char) (cs : List Char) (h : isJsonWs c = true) :
    skipWs (c :: cs) = skipWs cs := by
  rw [skipWs_cons, if_pos h]

theorem skipWs_not_ws (c : Char) (cs : List Char) (h : isJsonWs c = false) :
    skipWs (c :: cs) = c :: cs := by
  rw [skipWs_cons, if_neg (by simp [h])]

theorem skipWs_append_ws (ws cs : List Char) (h : ws.all isJsonWs = true) :
    skipWs (ws ++ cs) = skipWs cs := by
  induction ws with
  | nil => rfl
  | cons c t ih =>
      simp only [List.all_cons, Bool.and_eq_true] at h
      rw [List.cons_append, skipWs_ws_cons c _ h.1, ih h.2]

theorem takeWhile_append_stop {p : Char → Bool} (xs ys : List Char)
    (hx : ∀ c ∈ xs, p c = true) (hy : ∀ c, ys.head? = some c → p c = false) :
    (xs ++ ys).takeWhile p = xs := by
  induction xs with
  | nil =>
      cases ys with
      | nil => rfl
      | cons c t => simp [List.takeWhile_cons, hy c rfl]
  | cons c t ih =>
      simp only [List.cons_append, List.takeWhile_cons, hx c (List.mem_cons_self _ _),
        if_true]
      rw [ih (fun c2 hc2 => hx c2 (List.mem_cons_of_mem _ hc2))]

theorem readString_round (s rest : List Char) (hs : ∀ c ∈ s, c ≠ '"') :
    readString ('"' :: (s ++ '"' :: rest)) = some (s, rest) := by
  have htake : (s ++ '"' :: rest).takeWhile (fun x => !(x == '"')) = s :=
    takeWhile_append_stop s ('"' :: rest) (fun c hc => by simp [hs c hc])
      (fun c hc => by
        simp only [List.head?_cons, Option.some.injEq] at hc
        rw [← hc]
        simp)
  simp only [readString, htake, List.drop_left]
  simp

theorem readNat_round (n : Nat) (rest : List Char)
    (hrest : ∀ c, rest.head? = some c → c.isDigit = false) :
    readNat (natChars n ++ rest) = some (n, rest) := by
  have htake : (natChars n ++ rest).takeWhile Char.isDigit = natChars n :=
    takeWhile_append_stop (natChars n) rest (natChars_all_digit n) hrest
  have hemp : (natChars n).isEmpty = false := by
    cases hx : natChars n with
    | nil => exact absurd hx (natChars_ne_nil n)
    | cons a b => rfl
  simp only [readNat, htake, hemp, Bool.false_eq_true, if_false, natChars_val,
    List.drop_left]

theorem jsonSafeChar_ne_quote (c : Char) (h : jsonSafeChar c = true) : c ≠ '"' := by
  intro he
  rw [he] at h
  exact absurd h (by decide)

theorem readScalar_round (v : Scalar) (rest : List Char) (hv : wfScalar v = true)
    (hrest : ∀ c, rest.head? = some c → c.isDigit = false) :
    readScalar (renderScalar v ++ rest) = some (v, rest) := by
  cases v with
  | str s =>
      have hs : ∀ c ∈ s, c ≠ '"' := fun c hc =>
        jsonSafeChar_ne_quote c (by
          simp only [wfScalar, List.all_eq_true] at hv
          exact hv c hc)
      have : ('"' :: s ++ ['"']) ++ rest = '"' :: (s ++ '"' :: rest) := by simp
      rw [renderScalar, this, readScalar, readString_round s rest hs]
  | num n =>
      have hr : readString (natChars n ++ rest) = none := by
        rcases hx : natChars n with _ | ⟨c, t⟩
        · exact absurd hx (natChars_ne_nil n)
        · have hc : c.isDigit = true := by
            apply natChars_all_digit n
            rw [hx]
            exact List.mem_cons_self _ _
          have hcq : ¬ c = '"' := by
            intro he
            rw [he] at hc
            exact absurd hc (by decide)
          simp only [List.cons_append, readString, if_neg hcq]
      rw [renderScalar, readScalar, hr, readNat_round n rest hrest]

theorem joinComma_length_ge (L : List (List Char)) (h : ∀ x ∈ L, x ≠ []) :
    L.length ≤ (joinComma L).length := by
  induction L with
  | nil => simp [joinComma]
  | cons x t ih =>
      cases t with
      | nil =>
          have : x ≠ [] := h x (List.mem_cons_self _ _)
          cases x with
          | nil => exact absurd rfl this
          | cons a b => simp [joinComma]
      | cons y rest =>
          have ht := ih (fun z hz => h z (List.mem_cons_of_mem _ hz))
          simp only [joinComma, List.length_append, List.length_cons]
          simp only [List.length_cons] at ht
          omega

theorem parseFieldsAux_ws (fuel : Nat) (c : Char) (cs : List Char)
    (h : isJsonWs c = true) :
    parseFieldsAux fuel (c :: cs) = parseFieldsAux fuel cs := by
  cases fuel with
  | zero => rfl
  | succ f => simp only [parseFieldsAux, skipWs_ws_cons c cs h]

theorem isDigit_not_ws (c : Char) (h : c.isDigit = true) : isJsonWs c = false := by
  have hsp : c ≠ ' ' := by intro he; rw [he] at h; exact absurd h (by decide)
  have hnl : c ≠ '\n' := by intro he; rw [he] at h; exact absurd h (by decide)
  have htb : c ≠ '\t' := by intro he; rw [he] at h; exact absurd h (by decide)
  have hcr : c ≠ '\r' := by intro he; rw [he] at h; exact absurd h (by decide)
  simp [isJsonWs, hsp, hnl, htb, hcr]

theorem skipWs_renderScalar (v : Scalar) (rest : List Char) :
    skipWs (renderScalar v ++ rest) = renderScalar v ++ rest := by
  cases v with
  | str s => simp only [renderScalar, List.cons_append]; exact skipWs_not_ws _ _ (by decide)
  | num n =>
      rcases hx : natChars n with _ | ⟨c, t⟩
      · exact absurd hx (natChars_ne_nil n)
      · have hc : c.isDigit = true := by
          apply natChars_all_digit n
          rw [hx]
          exact List.mem_cons_self _ _
        simp only [renderScalar, hx, List.cons_append]
        exact skipWs_not_ws _ _ (isDigit_not_ws c hc)

theorem fieldStep (k : List Char) (v : Scalar) (ind tail : List Char) (fuel : Nat)
    (hk : ∀ c ∈ k, c ≠ '"') (hv : wfScalar v = true)
    (hind : ind.all isJsonWs = true)
    (htail : ∀ c, tail.head? = some c → c.isDigit = false) :
    parseFieldsAux (fuel + 1) (renderField ind (k, v) ++ tail) =
      (match skipWs tail with
       | ',' :: rest4 =>
           (match parseFieldsAux fuel rest4 with
            | some (fs, rest5) => some ((k, v) :: fs, rest5)
            | none => none)
       | '}' :: rest4 => some ([(k, v)], rest4)
       | _ => none) := by
  have h1 : skipWs (renderField ind (k, v) ++ tail) =
      '"' :: (k ++ '"' :: ':' :: ' ' :: (renderScalar v ++ tail)) := by
    simp only [renderField, List.append_assoc, List.cons_append]
    rw [skipWs_append_ws _ _ hind]
    exact skipWs_not_ws _ _ (by decide)
  simp only [parseFieldsAux, h1, readString_round k _ hk,
    skipWs_not_ws ':' _ (by decide), skipWs_ws_cons ' ' _ (by decide),
    skipWs_renderScalar, readScalar_round v tail hv htail]

theorem match_comma_reduce (f : Nat) (Z : List Char) (k : List Char) (v : Scalar) :
    (match ',' :: Z with
     | ',' :: rest4 =>
         (match parseFieldsAux f rest4 with
          | some (fs, rest5) => some ((k, v) :: fs, rest5)
          | none => none)
     | '}' :: rest4 => some ([(k, v)], rest4)
     | _ => none) =
    (match parseFieldsAux f Z with
     | some (fs, rest5) => some ((k, v) :: fs, rest5)
     | none => none) := rfl

theorem match_brace_reduce (f : Nat) (Z : List Char) (k : List Char) (v : Scalar) :
    (match '}' :: Z with
     | ',' :: rest4 =>
         (match parseFieldsAux f rest4 with
          | some (fs, rest5) => some ((k, v) :: fs, rest5)
          | none => none)
     | '}' :: rest4 => some ([(k, v)], rest4)
     | _ => none) = some ([(k, v)], Z) := rfl

theorem parseFields_round : ∀ (fields : List (List Char × Scalar)) (fuel : Nat)
    (ind closeInd suffix : List Char),
    fields ≠ [] → fields.length ≤ fuel →
    (∀ p ∈ fields, p.1.all jsonSafeChar = true ∧ wfScalar p.2 = true) →
    ind.all isJsonWs = true → closeInd.all isJsonWs = true →
    parseFieldsAux fuel
      (joinComma (fields.map (renderField ind)) ++ '\n' :: (closeInd ++ '}' :: suffix)) =
      some (fields, suffix)
  | [], _, _, _, _ => by
      intro h
      exact absurd rfl h
  | [p], fuel, ind, closeInd, suffix => by
      intro _ hfuel hwf hind hclose
      obtain ⟨k, v⟩ := p
      cases fuel with
      | zero => simp at hfuel
      | succ f =>
          have hp := hwf (k, v) (List.mem_singleton.mpr rfl)
          have hk : ∀ c ∈ k, c ≠ '"' := fun c hc =>
            jsonSafeChar_ne_quote c (by
              have := hp.1
              simp only [List.all_eq_true] at this
              exact this c hc)
          simp only [List.map_cons, List.map_nil, joinComma]
          rw [fieldStep k v ind _ f hk hp.2 hind
            (fun c hc => by
              simp only [List.head?_cons, Option.some.injEq] at hc
              rw [← hc]
              rfl)]
          rw [skipWs_ws_cons _ _ (by decide), skipWs_append_ws _ _ hclose,
            skipWs_not_ws '}' _ (by decide), match_brace_reduce]
  | p :: q :: rest, fuel, ind, closeInd, suffix => by
      intro _ hfuel hwf hind hclose
      obtain ⟨k, v⟩ := p
      cases fuel with
      | zero => simp at hfuel
      | succ f =>
          have hp := hwf (k, v) (List.mem_cons_self _ _)
          have hk : ∀ c ∈ k, c ≠ '"' := fun c hc =>
            jsonSafeChar_ne_quote c (by
              have := hp.1
              simp only [List.all_eq_true] at this
              exact this c hc)
          simp only [List.map_cons, joinComma, List.append_assoc, List.cons_append]
          rw [fieldStep k v ind _ f hk hp.2 hind
            (fun c hc => by
              simp only [List.head?_cons, Option.some.injEq] at hc
              rw [← hc]
              rfl)]
          rw [skipWs_not_ws ',' _ (by decide), match_comma_reduce]
          rw [parseFieldsAux_ws f '\n' _ (by decide)]
          have hrec := parseFields_round (q :: rest) f ind closeInd suffix (by simp)
            (by simp at hfuel ⊢; omega)
            (fun p2 hp2 => hwf p2 (List.mem_cons_of_mem _ hp2)) hind hclose
          simp only [List.map_cons] at hrec
          rw [hrec]

theorem skipWs_keyline (ws k V tail : List Char) (hws : ws.all isJsonWs = true) :
    skipWs ((ws ++ '"' :: k ++ '"' :: ':' :: ' ' :: V) ++ tail) =
      '"' :: (k ++ '"' :: ':' :: ' ' :: (V ++ tail)) := by
  simp only [List.append_assoc, List.cons_append]
  rw [skipWs_append_ws _ _ hws]
  exact skipWs_not_ws _ _ (by decide)

theorem renderField_ne_nil (ind : List Char) (p : List Char × Scalar) :
    renderField ind p ≠ [] := by
  simp [renderField]

theorem joinComma_cons_shape (f : List Char) (fs : List (List Char)) (X : List Char) :
    ∃ tail, joinComma (f :: fs) ++ X = f ++ tail := by
  cases fs with
  | nil => exact ⟨X, rfl⟩
  | cons g gs =>
      exact ⟨',' :: '\n' :: (joinComma (g :: gs) ++ X), by simp [joinComma]⟩

theorem match_fields_entry_reduce (W : List Char) (rest : List Char) :
    (match ('"' :: W : List Char) with
     | '}' :: rest2 => some ([], rest2)
     | _ => parseFieldsAux (rest.length + 1) rest) =
      parseFieldsAux (rest.length + 1) rest := rfl

theorem parseRecordVal_round (flds : List (List Char × Scalar)) (suffix : List Char)
    (hne : flds ≠ [])
    (hwf : ∀ p ∈ flds, p.1.all jsonSafeChar = true ∧ wfScalar p.2 = true) :
    parseRecordVal (renderRecordBody flds ++ suffix) = some (flds, suffix) := by
  rcases flds with _ | ⟨p0, frest⟩
  · exact absurd rfl hne
  · have hshape : renderRecordBody (p0 :: frest) ++ suffix =
        '{' :: ('\n' :: (joinComma ((p0 :: frest).map (renderField sp4)) ++
          '\n' :: (sp2 ++ '}' :: suffix))) := by
      simp [renderRecordBody, sp2, List.append_assoc]
    rw [hshape]
    obtain ⟨tail0, htail0⟩ := joinComma_cons_shape (renderField sp4 p0)
      (frest.map (renderField sp4)) ('\n' :: (sp2 ++ '}' :: suffix))
    have hsk : skipWs ('\n' :: (joinComma ((p0 :: frest).map (renderField sp4)) ++
        '\n' :: (sp2 ++ '}' :: suffix))) =
        '"' :: (p0.1 ++ '"' :: ':' :: ' ' :: (renderScalar p0.2 ++ tail0)) := by
      rw [skipWs_ws_cons _ _ (by decide), List.map_cons, htail0]
      simp only [renderField]
      exact skipWs_keyline sp4 p0.1 (renderScalar p0.2) tail0 (by decide)
    simp only [parseRecordVal, if_pos rfl, hsk, match_fields_entry_reduce]
    rw [parseFieldsAux_ws _ _ _ (by decide)]
    refine parseFields_round (p0 :: frest) _ sp4 sp2 suffix (by simp) ?_ hwf
      (by decide) (by decide)
    have hjc := joinComma_length_ge ((p0 :: frest).map (renderField sp4))
      (by
        intro x hx
        simp only [List.mem_map] at hx
        obtain ⟨p2, _, hp2⟩ := hx
        rw [← hp2]
        exact renderField_ne_nil sp4 p2)
    simp only [List.length_map, List.length_cons] at hjc ⊢
    simp only [List.length_append, List.length_cons]
    omega

theorem entryStep (k : List Char) (flds : List (List Char × Scalar)) (tail : List Char)
    (fuel : Nat) (hk : ∀ c ∈ k, c ≠ '"') (hne : flds ≠ [])
    (hwf : ∀ p ∈ flds, p.1.all jsonSafeChar = true ∧ wfScalar p.2 = true) :
    parseEntriesAux (fuel + 1)
      (sp2 ++ '"' :: (k ++ '"' :: ':' :: ' ' :: (renderRecordBody flds ++ tail))) =
      (match skipWs tail with
       | ',' :: rest4 =>
           (match parseEntriesAux fuel rest4 with
            | some (es, rest5) => some ((k, flds) :: es, rest5)
            | none => none)
       | '}' :: rest4 => some ([(k, flds)], rest4)
       | _ => none) := by
  have h2 : skipWs (renderRecordBody flds ++ tail) = renderRecordBody flds ++ tail := by
    simp only [renderRecordBody, List.cons_append]
    exact skipWs_not_ws _ _ (by decide)
  have h1 := skipWs_keyline sp2 k (renderRecordBody flds) tail (by decide)
  simp only [List.append_assoc, List.cons_append] at h1
  simp only [parseEntriesAux, h1,
    readString_round k _ hk, skipWs_not_ws ':' _ (by decide),
    skipWs_ws_cons ' ' _ (by decide), h2, parseRecordVal_round flds tail hne hwf]

theorem parseEntriesAux_ws (fuel : Nat) (c : Char) (cs : List Char)
    (h : isJsonWs c = true) :
    parseEntriesAux fuel (c :: cs) = parseEntriesAux fuel cs := by
  cases fuel with
  | zero => rfl
  | succ f => simp only [parseEntriesAux, skipWs_ws_cons c cs h]

theorem match_comma_entries (f : Nat) (Z : List Char) (k : List Char)
    (flds : List (List Char × Scalar)) :
    (match (',' :: Z : List Char) with
     | ',' :: rest4 =>
         (match parseEntriesAux f rest4 with
          | some (es, rest5) => some ((k, flds) :: es, rest5)
          | none => none)
     | '}' :: rest4 => some ([(k, flds)], rest4)
     | _ => none) =
      (match parseEntriesAux f Z with
       | some (es, rest5) => some ((k, flds) :: es, rest5)
       | none => none) := rfl

theorem match_brace_entries (f : Nat) (Z : List Char) (k : List Char)
    (flds : List (List Char × Scalar)) :
    (match ('}' :: Z : List Char) with
     | ',' :: rest4 =>
         (match parseEntriesAux f rest4 with
          | some (es, rest5) => some ((k, flds) :: es, rest5)
          | none => none)
     | '}' :: rest4 => some ([(k, flds)], rest4)
     | _ => none) = some ([(k, flds)], Z) := rfl

theorem recordFields_ne_nil (r : FileRecord) : recordFields r ≠ [] := by
  simp [recordFields]

theorem recordFields_wf (r : FileRecord) (h : wfRecord r = true) :
    ∀ q ∈ recordFields r, q.1.all jsonSafeChar = true ∧ wfScalar q.2 = true := by
  simp only [wfRecord, Bool.and_eq_true] at h
  obtain ⟨⟨⟨⟨⟨ho, hu⟩, hh⟩, hd⟩, hp⟩, hs⟩ := h
  intro q hq
  simp only [recordFields, List.mem_cons, List.not_mem_nil, or_false] at hq
  rcases hq with h1 | h1 | h1 | h1 | h1 | h1 | h1 <;> subst h1 <;> dsimp only
  · exact ⟨by decide, by simpa [wfScalar] using ho⟩
  · exact ⟨by decide, by simpa [wfScalar] using hu⟩
  · exact ⟨by decide, rfl⟩
  · exact ⟨by decide, by simpa [wfScalar] using hh⟩
  · exact ⟨by decide, by simpa [wfScalar] using hd⟩
  · exact ⟨by decide, by simpa [wfScalar] using hp⟩
  · exact ⟨by decide, by simpa [wfScalar] using hs⟩

theorem key_of_wfEntry (p : String × FileRecord)
    (h : (p.1.data.all jsonSafeChar && wfRecord p.2) = true) :
    ∀ c ∈ p.1.data, c ≠ '"' := by
  simp only [Bool.and_eq_true, List.all_eq_true] at h
  exact fun c hc => jsonSafeChar_ne_quote c (h.1 c hc)

theorem parseEntries_round : ∀ (entries : Store) (fuel : Nat) (suffix : List Char),
    entries ≠ [] → entries.length ≤ fuel →
    (∀ p ∈ entries, (p.1.data.all jsonSafeChar && wfRecord p.2) = true) →
    parseEntriesAux fuel (joinComma (entries.map renderEntry) ++ '\n' :: ('}' :: suffix)) =
      some (storeContent entries, suffix)
  | [], _, _ => by
      intro h
      exact absurd rfl h
  | [p], fuel, suffix => by
      intro _ hfuel hwf
      cases fuel with
      | zero => simp at hfuel
      | succ f =>
          have hp := hwf p (List.mem_singleton.mpr rfl)
          simp only [List.map_cons, List.map_nil, joinComma, renderEntry,
            List.append_assoc, List.cons_append]
          rw [entryStep p.1.data (recordFields p.2) _ f (key_of_wfEntry p hp)
            (recordFields_ne_nil p.2)
            (recordFields_wf p.2 (by
              simp only [Bool.and_eq_true] at hp
              exact hp.2))]
          rw [skipWs_ws_cons _ _ (by decide), skipWs_not_ws '}' _ (by decide),
            match_brace_entries]
          simp [storeContent]
  | p :: q :: rest, fuel, suffix => by
      intro _ hfuel hwf
      cases fuel with
      | zero => simp at hfuel
      | succ f =>
          have hp := hwf p (List.mem_cons_self _ _)
          simp only [List.map_cons, joinComma, List.append_assoc, List.cons_append,
            renderEntry]
          rw [entryStep p.1.data (recordFields p.2) _ f (key_of_wfEntry p hp)
            (recordFields_ne_nil p.2)
            (recordFields_wf p.2 (by
              simp only [Bool.and_eq_true] at hp
              exact hp.2))]
          rw [skipWs_not_ws ',' _ (by decide), match_comma_entries]
          rw [parseEntriesAux_ws f '\n' _ (by decide)]
          have hrec := parseEntries_round (q :: rest) f suffix (by simp)
            (by simp at hfuel ⊢; omega)
            (fun p2 hp2 => hwf p2 (List.mem_cons_of_mem _ hp2))
          simp only [List.map_cons, renderEntry, List.append_assoc, List.cons_append] at hrec
          rw [hrec]
          simp [storeContent]

theorem renderEntry_ne_nil (p : String × FileRecord) : renderEntry p ≠ [] := by
  simp [renderEntry, sp2]

theorem match_storedoc_reduce (W rest : List Char) :
    (match ('"' :: W : List Char) with
     | '}' :: rest2 => if (skipWs rest2).isEmpty then some [] else none
     | _ =>
         (match parseEntriesAux (rest.length + 1) rest with
          | some (es, rest3) => if (skipWs rest3).isEmpty then some es else none
          | none => none)) =
      (match parseEntriesAux (rest.length + 1) rest with
       | some (es, rest3) => if (skipWs rest3).isEmpty then some es else none
       | none => none) := rfl

/-- C8: for every well-formed persisted metadata document, save(load())
leaves the store content unchanged: writing the loaded mapping back with
the exact json.dump(indent=2) text and re-reading it yields the same
mapping (idempotent serialization at the content level). Stated over the
in-memory store the load produced: re-rendering it and parsing the
rendered document returns exactly its content. -/
theorem C8_metadata_roundtrip (m : Store) (hwf : wfStore m = true) :
    parseStoreDoc (renderStoreChars m) = some (storeContent m) := by
  rcases m with _ | ⟨p0, t⟩
  · rfl
  · have hwf2 : ∀ p ∈ p0 :: t, (p.1.data.all jsonSafeChar && wfRecord p.2) = true := by
      simp only [wfStore, List.all_eq_true] at hwf
      exact hwf
    have hshape : renderStoreChars (p0 :: t) =
        '{' :: ('\n' :: (joinComma ((p0 :: t).map renderEntry) ++ '\n' :: ('}' :: []))) := rfl
    rw [hshape]
    obtain ⟨tail0, htail0⟩ := joinComma_cons_shape (renderEntry p0)
      (t.map renderEntry) ('\n' :: ('}' :: []))
    have hsk : skipWs ('\n' :: (joinComma ((p0 :: t).map renderEntry) ++
        '\n' :: ('}' :: []))) =
        '"' :: (p0.1.data ++ '"' :: ':' :: ' ' ::
          (renderRecordBody (recordFields p0.2) ++ tail0)) := by
      rw [skipWs_ws_cons _ _ (by decide), List.map_cons, htail0]
      simp only [renderEntry]
      exact skipWs_keyline sp2 p0.1.data (renderRecordBody (recordFields p0.2)) tail0
        (by decide)
    have hdoc : parseStoreDoc ('{' :: ('\n' :: (joinComma ((p0 :: t).map renderEntry) ++
        '\n' :: ('}' :: [])))) =
        (match parseEntriesAux
            (('\n' :: (joinComma ((p0 :: t).map renderEntry) ++ '\n' :: ('}' :: []))).length + 1)
            ('\n' :: (joinComma ((p0 :: t).map renderEntry) ++ '\n' :: ('}' :: []))) with
         | some (es, rest3) => if (skipWs rest3).isEmpty then some es else none
         | none => none) := by
      simp only [parseStoreDoc, skipWs_not_ws '{' _ (by decide), if_pos rfl, if_true,
        hsk, match_storedoc_reduce]
    rw [hdoc, parseEntriesAux_ws _ '\n' _ (by decide)]
    have hjc := joinComma_length_ge ((p0 :: t).map renderEntry)
      (by
        intro x hx
        simp only [List.mem_map] at hx
        obtain ⟨p2, _, hp2⟩ := hx
        rw [← hp2]
        exact renderEntry_ne_nil p2)
    have hrec := parseEntries_round (p0 :: t)
      (('\n' :: (joinComma ((p0 :: t).map renderEntry) ++ '\n' :: ('}' :: []))).length + 1)
      [] (by simp)
      (by
        simp only [List.length_map, List.length_cons] at hjc ⊢
        simp only [List.length_append, List.length_cons]
        omega)
      hwf2
    rw [hrec]
    rfl

/-- Witness for C8: the sample store is well formed and its rendered
document parses back to exactly its content. -/
theorem C8_metadata_roundtrip_witness :
    wfStore sampleStore = true ∧
    parseStoreDoc (renderStoreChars sampleStore) = some (storeContent sampleStore) :=
  ⟨by decide, C8_metadata_roundtrip sampleStore (by decide)⟩
